import Mathlib

/-!
Shallow embedding of the Go package `customerimporter` (file `interview.go`),
which reads CSV customer records, groups them by lower-cased email domain and
returns the groups sorted by domain name.

Modelling conventions:
* a `*csv.Reader` is an `Option (List (List String))`: `none` is a nil reader,
  `some records` is a reader that will deliver `records` in order and then
  `io.EOF`; Go's `csv.Reader` rejects any record whose field count differs
  from the first record's (`FieldsPerRecord`), which `importLoop` models;
* the Go map `map[string]int` is an association list built only through
  `mapIncr` (the embedding of `custGrp[mailDomain]++`);
* a Go slice-index panic is the explicit outcome `outOfRange`;
* `strings.Split(s, "@")` is embedded character-structurally by `emailSplit`
  and `strings.ToLower` by `lowerCase` (the source only ever lower-cases
  domains, and Lean's `Char.toLower` models Go's per-rune lowering on the
  basic latin range).
-/

namespace CustomerImporter

/-- Constant `defaultCsvFileName` of the source. -/
def defaultCsvFileName : String := "customers.csv"

/-- Constant `defaultEmailColumnName` of the source. -/
def defaultEmailColumnName : String := "email"

/-- Constant `numExpectedEmailComponents` of the source: username and domain. -/
def numExpectedEmailComponents : Nat := 2

/-- Constant `emailDomainIndex` of the source. -/
def emailDomainIndex : Nat := 1

/-- Output record of the import: a domain together with its customer count.
The Go `Counter` field is an `int` that is only ever incremented from zero,
so it is embedded as `Nat`. -/
structure EmailGroup where
  EmailDomain : String
  Counter : Nat
deriving DecidableEq

/-- The `customerImporter` struct holding the configuration. -/
structure customerImporter where
  CsvFileName : String
  EmailColumnName : String
deriving DecidableEq

/-- Constructor `New` of the source: default file name and column name. -/
def New : customerImporter :=
  { CsvFileName := defaultCsvFileName, EmailColumnName := defaultEmailColumnName }

/-- Setter `SetCsvFileName`: the Go method mutates the receiver; the embedding
returns the updated record. -/
def SetCsvFileName (ci : customerImporter) (fileName : String) : customerImporter :=
  { ci with CsvFileName := fileName }

/-- Setter `SetEmailColumnName`. -/
def SetEmailColumnName (ci : customerImporter) (columnName : String) : customerImporter :=
  { ci with EmailColumnName := columnName }

/-- The aggregation map `custGrp : map[string]int`, as an association list in
insertion order (Go map iteration order is arbitrary; theorems that depend on
order quantify over permutations). -/
abbrev DomainMap := List (String × Nat)

/-- Embedding of `custGrp[mailDomain]++`: increment the entry of `k`,
creating it with value 1 when absent. -/
def mapIncr (m : DomainMap) (k : String) : DomainMap :=
  match m with
  | [] => [(k, 1)]
  | (k', v) :: rest => if k' = k then (k', v + 1) :: rest else (k', v) :: mapIncr rest k

/-- Embedding of reading `custGrp[domain]`: Go returns the zero value 0 for a
missing key. -/
def lookupCount (m : DomainMap) (k : String) : Nat :=
  match m with
  | [] => 0
  | (k', v) :: rest => if k' = k then v else lookupCount rest k

/-- Character-level split used to embed `strings.Split(s, "@")` for the
single-character separator of the source: split around every occurrence of
`sep`, keeping empty parts, never returning an empty list. -/
def splitOnChar (sep : Char) : List Char → List (List Char)
  | [] => [[]]
  | c :: rest =>
    if c = sep then [] :: splitOnChar sep rest
    else
      match splitOnChar sep rest with
      | [] => [[c]]
      | part :: parts => (c :: part) :: parts

/-- Embedding of `strings.Split(emailField, "@")`. -/
def emailSplit (s : String) : List String :=
  (splitOnChar '@' s.data).map String.mk

/-- Embedding of `strings.ToLower` (per-character lowering). -/
def lowerCase (s : String) : String :=
  String.mk (s.data.map Char.toLower)

/-- Outcome of one `processLine` call. `ok` carries the updated map (the Go
function mutates `custGrp` in place and returns `nil`); `err` is a returned
non-nil `error`, which makes the caller log and skip the line; `outOfRange`
is a Go slice-index panic. -/
inductive ProcResult where
  | ok (custGrp : DomainMap)
  | err (msg : String)
  | outOfRange
deriving DecidableEq

/-- Embedding of `processLine`: defensive length check (verbatim `<` against
the index, as in the source), extraction of the email field, split on `'@'`,
length test against `numExpectedEmailComponents`, then lower-casing of the
component at `emailDomainIndex` and increment of its counter. The Go receiver
`ci` is unused by the source function and is omitted. -/
def processLine (line : List String) (emailColIndex : Nat) (custGrp : DomainMap)
    (lineNumber : Nat) : ProcResult :=
  if line.length < emailColIndex then
    .err ("email field not found at line " ++ toString lineNumber)
  else
    match line.get? emailColIndex with
    | none => .outOfRange
    | some emailField =>
      let components := emailSplit emailField
      if components.length = numExpectedEmailComponents then
        .ok (mapIncr custGrp (lowerCase (components.getD emailDomainIndex "")))
      else
        .err "invalid email format"

/-- Embedding of the header scan of `parseHeader`: walk the header fields left
to right with a running `emailColIndex` counter, returning the index of the
first field equal to the configured column name. -/
def findEmailCol (columnName : String) (header : List String) (emailColIndex : Nat) :
    Option Nat :=
  match header with
  | [] => none
  | colName :: rest =>
    if colName = columnName then some emailColIndex
    else findEmailCol columnName rest (emailColIndex + 1)

/-- Embedding of `parseHeader`: nil reader check, read of the first record
(`io.EOF` when the input is empty), then the scan for the configured email
column name; the Go function returns `(-1, err)` on failure, embedded as
`Except.error`. -/
def parseHeader (ci : customerImporter) (reader : Option (List (List String))) :
    Except String Nat :=
  match reader with
  | none => .error "invalid reader"
  | some [] => .error "EOF"
  | some (header :: _) =>
    match findEmailCol ci.EmailColumnName header 0 with
    | some emailColIndex => .ok emailColIndex
    | none =>
      .error ("missing column name '" ++ ci.EmailColumnName ++
        "' in the first line of the file")

/-- Outcome of the read/process loop of `Import`: `done` carries the final map
and the accumulated `skip line` log messages; `err` is a non-`io.EOF` reader
error (Go's csv reader rejecting a record whose field count differs from the
header's), fatal to the import; `outOfRange` propagates a panic from
`processLine`. -/
inductive LoopResult where
  | done (custGrp : DomainMap) (logs : List String)
  | err (msg : String)
  | outOfRange
deriving DecidableEq

/-- Embedding of the `for` loop of `Import`: read records until EOF; a record
whose field count differs from `fieldsPerRecord` (the header's field count,
fixed by the csv reader at the first read) is a fatal reader error with Go's
csv message; otherwise `processLine` runs, and on error the line is logged
and skipped. `lineNumber` starts at 2 because the header was line 1. -/
def importLoop (records : List (List String)) (fieldsPerRecord emailColIndex : Nat)
    (custGrp : DomainMap) (lineNumber : Nat) (logs : List String) : LoopResult :=
  match records with
  | [] => .done custGrp logs
  | line :: rest =>
    if line.length = fieldsPerRecord then
      match processLine line emailColIndex custGrp lineNumber with
      | .ok m => importLoop rest fieldsPerRecord emailColIndex m (lineNumber + 1) logs
      | .err msg =>
        importLoop rest fieldsPerRecord emailColIndex custGrp (lineNumber + 1)
          (logs ++ ["skip line " ++ toString lineNumber ++ ": " ++ msg])
      | .outOfRange => .outOfRange
    else
      .err ("record on line " ++ toString lineNumber ++ ": wrong number of fields")

/-- Executable decidability of `≤` on `String` through the character lists,
used so that sorting evaluates inside the kernel (the library instance goes
through `String.ltb`, which does not reduce). -/
def strLeData : DecidableRel (fun a b : String => a ≤ b) := fun a b =>
  decidable_of_iff (a.toList ≤ b.toList) String.le_iff_toList_le.symm

/-- Embedding of `sortResults`: collect the map keys, sort them ascending
(`sort.Strings`; the keys of a Go map are pairwise distinct, so any correct
sort produces this unique sorted list), and build the `EmailGroup` list by
looking each key up. -/
def sortResults (custGrp : DomainMap) : List EmailGroup :=
  let keys := @List.insertionSort String (· ≤ ·) strLeData (custGrp.map Prod.fst)
  keys.map (fun domain => { EmailDomain := domain, Counter := lookupCount custGrp domain })

/-- Outcome of `Import`: Go returns `([]EmailGroup, error)` and logs skipped
lines; `ok` carries both the result list and the log. -/
inductive ImportResult where
  | ok (results : List EmailGroup) (logs : List String)
  | err (msg : String)
  | outOfRange
deriving DecidableEq

/-- Embedding of `Import`: parse the header, then run the loop over the
remaining records with the header's field count as `FieldsPerRecord`, the map
initially empty and `lineNumber = 2`, and finally sort the aggregated map.
`parseHeader` succeeds only on `some (header :: rest)`, so the last match arm
is unreachable. -/
def Import (ci : customerImporter) (reader : Option (List (List String))) :
    ImportResult :=
  match parseHeader ci reader with
  | .error e => .err e
  | .ok emailColIndex =>
    match reader with
    | some (header :: rest) =>
      match importLoop rest header.length emailColIndex [] 2 [] with
      | .done custGrp logs => .ok (sortResults custGrp) logs
      | .err e => .err e
      | .outOfRange => .outOfRange
    | _ => .outOfRange

/-- Sum of the `Counter` fields of a result list. -/
def sumCounters (results : List EmailGroup) : Nat :=
  (results.map EmailGroup.Counter).sum

/-- Sum of the counts stored in the aggregation map. -/
def sumValues (m : DomainMap) : Nat :=
  (m.map Prod.snd).sum

/-- Keys of the aggregation map are pairwise distinct (always true of a Go
map; the embedding maintains it through `mapIncr`). -/
abbrev nodupKeys (m : DomainMap) : Prop :=
  (m.map Prod.fst).Nodup

/-- Specification-side aggregation, following the spec's words for the line
processor: for each row take the email field, split it on `'@'`; when the
split has exactly the two components username and domain, lower-case the
domain and increment its counter; otherwise skip the row. Used to state the
refinement claims about `Import`. -/
def specAggregate (emailColIndex : Nat) (custGrp : DomainMap) :
    List (List String) → DomainMap
  | [] => custGrp
  | row :: rest =>
    match emailSplit (row.getD emailColIndex "") with
    | [_, domainPart] =>
      specAggregate emailColIndex (mapIncr custGrp (lowerCase domainPart)) rest
    | _ => specAggregate emailColIndex custGrp rest

/-- Specification-side log, following the spec's words for the error policy:
each row whose email field does not split into exactly two components is
logged with its line number and the reason, and processing continues. -/
def specSkipLogs (emailColIndex lineNumber : Nat) : List (List String) → List String
  | [] => []
  | row :: rest =>
    if (emailSplit (row.getD emailColIndex "")).length = numExpectedEmailComponents then
      specSkipLogs emailColIndex (lineNumber + 1) rest
    else
      ("skip line " ++ toString lineNumber ++ ": invalid email format") ::
        specSkipLogs emailColIndex (lineNumber + 1) rest

/-- Row predicate of the spec's counting property: the email field splits on
`'@'` into exactly two parts. -/
def validEmailRow (emailColIndex : Nat) (row : List String) : Bool :=
  (emailSplit (row.getD emailColIndex "")).length == numExpectedEmailComponents

/-- Invariant: every key of the aggregation map is its own lower-casing. -/
def lowerKeys (m : DomainMap) : Prop :=
  ∀ k ∈ m.map Prod.fst, lowerCase k = k

theorem lookupCount_mapIncr_self (m : DomainMap) (k : String) :
    lookupCount (mapIncr m k) k = lookupCount m k + 1 := by
  induction m with
  | nil => simp [mapIncr, lookupCount]
  | cons p rest ih =>
    obtain ⟨k', v⟩ := p
    by_cases h : k' = k
    · subst h
      simp [mapIncr, lookupCount]
    · simp [mapIncr, lookupCount, h, ih]

theorem mapIncr_keys (m : DomainMap) (k : String) :
    (mapIncr m k).map Prod.fst =
      if k ∈ m.map Prod.fst then m.map Prod.fst else m.map Prod.fst ++ [k] := by
  induction m with
  | nil => simp [mapIncr]
  | cons p rest ih =>
    obtain ⟨k', v⟩ := p
    by_cases h : k' = k
    · subst h
      simp [mapIncr]
    · have hne : ¬ (k = k') := fun hk => h hk.symm
      by_cases hmem : k ∈ rest.map Prod.fst <;>
        simp [mapIncr, h, hne, hmem, ih]

theorem nodupKeys_mapIncr {m : DomainMap} (h : nodupKeys m) (k : String) :
    nodupKeys (mapIncr m k) := by
  unfold nodupKeys at h ⊢
  rw [mapIncr_keys]
  by_cases hmem : k ∈ m.map Prod.fst
  · simpa [hmem]
  · simp [hmem, List.nodup_append, h]

theorem sumValues_mapIncr (m : DomainMap) (k : String) :
    sumValues (mapIncr m k) = sumValues m + 1 := by
  induction m with
  | nil => simp [mapIncr, sumValues]
  | cons p rest ih =>
    obtain ⟨k', v⟩ := p
    by_cases h : k' = k <;>
      simp [mapIncr, sumValues, h] at ih ⊢ <;> omega

theorem lookupCount_eq_zero_of_not_mem {m : DomainMap} {k : String}
    (h : k ∉ m.map Prod.fst) : lookupCount m k = 0 := by
  induction m with
  | nil => rfl
  | cons p rest ih =>
    obtain ⟨k', v⟩ := p
    simp only [List.map_cons, List.mem_cons] at h
    push_neg at h
    have hne : k' ≠ k := fun hk => h.1 hk.symm
    simp [lookupCount, hne, ih h.2]

theorem get?_eq_some_getD {l : List String} {i : Nat} (hi : i < l.length) :
    l.get? i = some (l.getD i "") := by
  induction l generalizing i with
  | nil => simp at hi
  | cons a t ih =>
    cases i with
    | zero => simp [List.getD]
    | succ j =>
      have hj : j < t.length := by simpa using hi
      simpa [List.getD] using ih hj

theorem processLine_eq {line : List String} {i : Nat} (m : DomainMap) (n : Nat)
    (hi : i < line.length) :
    processLine line i m n =
      match emailSplit (line.getD i "") with
      | [_, domainPart] => .ok (mapIncr m (lowerCase domainPart))
      | _ => .err "invalid email format" := by
  unfold processLine
  rw [if_neg (by omega), get?_eq_some_getD hi]
  dsimp only
  rcases hs : emailSplit (line.getD i "") with _ | ⟨a, _ | ⟨b, _ | ⟨c, t⟩⟩⟩ <;>
    simp [numExpectedEmailComponents, emailDomainIndex]

theorem processLine_ok_shape {line : List String} {i : Nat} {m m' : DomainMap}
    {n : Nat} (h : processLine line i m n = .ok m') :
    ∃ d, m' = mapIncr m (lowerCase d) := by
  by_cases hi : i < line.length
  · rw [processLine_eq m n hi] at h
    rcases hs : emailSplit (line.getD i "") with _ | ⟨a, _ | ⟨b, _ | ⟨c, t⟩⟩⟩ <;>
      rw [hs] at h
    · cases h
    · cases h
    · exact ⟨b, (ProcResult.ok.inj h).symm⟩
    · cases h
  · unfold processLine at h
    by_cases hlt : line.length < i
    · rw [if_pos hlt] at h
      cases h
    · rw [if_neg hlt] at h
      have hn : line.get? i = none := by
        rw [List.get?_eq_none]
        omega
      rw [hn] at h
      cases h

theorem toNat_ofNat_of_valid {n : Nat} (h : n < 55296) : (Char.ofNat n).toNat = n := by
  rw [Char.ofNat, dif_pos (Or.inl h)]
  rfl

theorem char_toLower_eq (c : Char) :
    c.toLower = if c.toNat ≥ 65 ∧ c.toNat ≤ 90 then Char.ofNat (c.toNat + 32) else c := rfl

theorem char_toLower_idem (c : Char) : c.toLower.toLower = c.toLower := by
  rw [char_toLower_eq c]
  by_cases h : c.toNat ≥ 65 ∧ c.toNat ≤ 90
  · rw [if_pos h, char_toLower_eq]
    have hv : (Char.ofNat (c.toNat + 32)).toNat = c.toNat + 32 :=
      toNat_ofNat_of_valid (by omega)
    rw [if_neg (by rw [hv]; omega)]
  · rw [if_neg h, char_toLower_eq, if_neg h]

theorem lowerCase_idem (s : String) : lowerCase (lowerCase s) = lowerCase s := by
  unfold lowerCase
  rw [List.map_map]
  exact congrArg String.mk (List.map_congr_left fun c _ => char_toLower_idem c)

theorem string_append_assoc (a b c : String) : a ++ b ++ c = a ++ (b ++ c) := by
  apply String.ext
  simp [List.append_assoc]

theorem skip_msg_eq (n : Nat) :
    "skip line " ++ toString n ++ ": " ++ "invalid email format" =
      "skip line " ++ toString n ++ ": invalid email format" := by
  rw [string_append_assoc ("skip line " ++ toString n)]
  rfl

theorem importLoop_done_of_wellformed (records : List (List String)) (fpr i : Nat)
    (m : DomainMap) (n : Nat) (logs : List String)
    (hlen : ∀ r ∈ records, r.length = fpr) (hi : i < fpr) :
    importLoop records fpr i m n logs =
      .done (specAggregate i m records) (logs ++ specSkipLogs i n records) := by
  induction records generalizing m n logs with
  | nil => simp [importLoop, specAggregate, specSkipLogs]
  | cons r rest ih =>
    have hr : r.length = fpr := hlen r (List.mem_cons_self r rest)
    have hrest : ∀ x ∈ rest, x.length = fpr := fun x hx => hlen x (List.mem_cons_of_mem r hx)
    have hir : i < r.length := by omega
    unfold importLoop
    rw [if_pos hr, processLine_eq m n hir]
    rcases hs : emailSplit (r.getD i "") with _ | ⟨a, _ | ⟨b, _ | ⟨c, t⟩⟩⟩ <;>
      unfold specAggregate specSkipLogs <;>
      simp only [hs, numExpectedEmailComponents, List.length_cons, List.length_nil] <;>
      rw [ih _ _ _ hrest]
    · simp [skip_msg_eq]
    · simp [skip_msg_eq]
    · simp
    · simp [skip_msg_eq]

theorem importLoop_done_nodup_sum {records : List (List String)} {fpr i : Nat}
    {m m' : DomainMap} {n : Nat} {logs logs' : List String}
    (h : importLoop records fpr i m n logs = .done m' logs') :
    (nodupKeys m → nodupKeys m') ∧ sumValues m' ≤ sumValues m + records.length := by
  induction records generalizing m n logs with
  | nil =>
    unfold importLoop at h
    cases h
    exact ⟨fun hm => hm, by simp⟩
  | cons r rest ih =>
    unfold importLoop at h
    split at h
    · cases hp : processLine r i m n with
      | ok m₂ =>
        rw [hp] at h
        obtain ⟨d, hd⟩ := processLine_ok_shape hp
        obtain ⟨h1, h2⟩ := ih h
        subst hd
        refine ⟨fun hm => h1 (nodupKeys_mapIncr hm (lowerCase d)), ?_⟩
        rw [sumValues_mapIncr] at h2
        simpa using Nat.le_trans h2 (by omega)
      | err msg =>
        rw [hp] at h
        obtain ⟨h1, h2⟩ := ih h
        exact ⟨h1, by simpa using Nat.le_trans h2 (by omega)⟩
      | outOfRange =>
        rw [hp] at h
        cases h
    · cases h

theorem sumValues_specAggregate (i : Nat) (m : DomainMap) (rows : List (List String)) :
    sumValues (specAggregate i m rows) = sumValues m + rows.countP (validEmailRow i) := by
  induction rows generalizing m with
  | nil => simp [specAggregate]
  | cons r rest ih =>
    unfold specAggregate
    rcases hs : emailSplit (r.getD i "") with _ | ⟨a, _ | ⟨b, _ | ⟨c, t⟩⟩⟩ <;>
      simp only [ih, sumValues_mapIncr, List.countP_cons, validEmailRow, hs,
        numExpectedEmailComponents] <;>
      simp <;> omega

theorem nodupKeys_specAggregate (i : Nat) {m : DomainMap} (rows : List (List String))
    (h : nodupKeys m) : nodupKeys (specAggregate i m rows) := by
  induction rows generalizing m with
  | nil => exact h
  | cons r rest ih =>
    unfold specAggregate
    rcases hs : emailSplit (r.getD i "") with _ | ⟨a, _ | ⟨b, _ | ⟨c, t⟩⟩⟩
    · exact ih h
    · exact ih h
    · exact ih (nodupKeys_mapIncr h _)
    · exact ih h

theorem specAggregate_cons (i : Nat) (m : DomainMap) (r : List String)
    (rest : List (List String)) :
    specAggregate i m (r :: rest) =
      match emailSplit (r.getD i "") with
      | [_, domainPart] => specAggregate i (mapIncr m (lowerCase domainPart)) rest
      | _ => specAggregate i m rest := rfl

theorem specAggregate_filter (i : Nat) (m : DomainMap) (rows : List (List String)) :
    specAggregate i m rows = specAggregate i m (rows.filter (validEmailRow i)) := by
  induction rows generalizing m with
  | nil => rfl
  | cons r rest ih =>
    rcases hs : emailSplit (r.getD i "") with _ | ⟨a, _ | ⟨b, _ | ⟨c, t⟩⟩⟩
    · have hv : validEmailRow i r = false := by
        unfold validEmailRow
        rw [hs]
        rfl
      rw [List.filter_cons, hv, specAggregate_cons, hs]
      exact ih m
    · have hv : validEmailRow i r = false := by
        unfold validEmailRow
        rw [hs]
        rfl
      rw [List.filter_cons, hv, specAggregate_cons, hs]
      exact ih m
    · have hv : validEmailRow i r = true := by
        unfold validEmailRow
        rw [hs]
        rfl
      rw [List.filter_cons, hv]
      show specAggregate i m (r :: rest) =
        specAggregate i m (r :: rest.filter (validEmailRow i))
      simp only [specAggregate_cons]
      rw [hs]
      exact ih (mapIncr m (lowerCase b))
    · have hv : validEmailRow i r = false := by
        unfold validEmailRow
        rw [hs]
        simp [numExpectedEmailComponents]
      rw [List.filter_cons, hv, specAggregate_cons, hs]
      exact ih m

theorem findEmailCol_some_lt {c : String} {hdr : List String} {k i : Nat}
    (h : findEmailCol c hdr k = some i) : i < k + hdr.length := by
  induction hdr generalizing k with
  | nil => cases h
  | cons x rest ih =>
    unfold findEmailCol at h
    split at h
    · cases h
      simp [List.length_cons]
    · have := ih h
      simp only [List.length_cons]
      omega

theorem findEmailCol_none {c : String} {hdr : List String} (k : Nat)
    (h : ∀ x ∈ hdr, x ≠ c) : findEmailCol c hdr k = none := by
  induction hdr generalizing k with
  | nil => rfl
  | cons x rest ih =>
    unfold findEmailCol
    rw [if_neg (h x (List.mem_cons_self x rest))]
    exact ih (k + 1) (fun y hy => h y (List.mem_cons_of_mem x hy))

theorem lookupCount_perm {m₁ m₂ : DomainMap} (hp : m₁.Perm m₂) :
    nodupKeys m₁ → ∀ k, lookupCount m₁ k = lookupCount m₂ k := by
  induction hp with
  | nil => exact fun _ _ => rfl
  | cons x hp ih =>
    intro h k
    obtain ⟨k', v⟩ := x
    simp only [nodupKeys, List.map_cons, List.nodup_cons] at h
    by_cases hk : k' = k <;> simp [lookupCount, hk, ih h.2 k]
  | swap x y l =>
    intro h k
    obtain ⟨k₁, v₁⟩ := x
    obtain ⟨k₂, v₂⟩ := y
    have hne : k₂ ≠ k₁ := by
      simp only [nodupKeys, List.map_cons, List.nodup_cons, List.mem_cons] at h
      exact fun he => h.1 (Or.inl he)
    by_cases h1 : k₂ = k <;> by_cases h2 : k₁ = k <;>
      simp [lookupCount, h1, h2]
    exact absurd (h1.trans h2.symm) hne
  | trans hp₁ hp₂ ih₁ ih₂ =>
    intro h k
    exact (ih₁ h k).trans (ih₂ ((hp₁.map Prod.fst).nodup h) k)

theorem sum_lookup_keys {m : DomainMap} (h : nodupKeys m) :
    ((m.map Prod.fst).map (lookupCount m)).sum = sumValues m := by
  induction m with
  | nil => rfl
  | cons p rest ih =>
    obtain ⟨k, v⟩ := p
    simp only [nodupKeys, List.map_cons, List.nodup_cons] at h
    have hnotin : k ∉ rest.map Prod.fst := h.1
    have hnd : nodupKeys rest := h.2
    have hcongr : (rest.map Prod.fst).map (lookupCount ((k, v) :: rest)) =
        (rest.map Prod.fst).map (lookupCount rest) := by
      apply List.map_congr_left
      intro k' hk'
      have hne : k ≠ k' := fun he => hnotin (he ▸ hk')
      simp [lookupCount, hne]
    simp only [List.map_cons, List.sum_cons]
    rw [hcongr]
    have hhead : lookupCount ((k, v) :: rest) k = v := by
      simp [lookupCount]
    rw [hhead, ih hnd]
    simp [sumValues]

theorem sortResults_domains (m : DomainMap) :
    (sortResults m).map EmailGroup.EmailDomain =
      @List.insertionSort String (· ≤ ·) strLeData (m.map Prod.fst) := by
  unfold sortResults
  rw [List.map_map]
  have hcomp : (EmailGroup.EmailDomain ∘
      fun domain => EmailGroup.mk domain (lookupCount m domain)) = id := rfl
  rw [hcomp, List.map_id]

theorem sumCounters_sortResults {m : DomainMap} (h : nodupKeys m) :
    sumCounters (sortResults m) = sumValues m := by
  unfold sortResults sumCounters
  rw [List.map_map]
  have hcomp : (EmailGroup.Counter ∘
      fun domain => EmailGroup.mk domain (lookupCount m domain)) = lookupCount m := rfl
  rw [hcomp]
  have hperm : (@List.insertionSort String (· ≤ ·) strLeData (m.map Prod.fst)).Perm
      (m.map Prod.fst) := @List.perm_insertionSort String (· ≤ ·) strLeData _
  rw [(hperm.map (lookupCount m)).sum_eq]
  exact sum_lookup_keys h

theorem sortResults_strictSorted {m : DomainMap} (h : nodupKeys m) :
    ((sortResults m).map EmailGroup.EmailDomain).Pairwise (· < ·) := by
  rw [sortResults_domains]
  have hsorted : List.Sorted (· ≤ ·)
      (@List.insertionSort String (· ≤ ·) strLeData (m.map Prod.fst)) :=
    @List.sorted_insertionSort String (· ≤ ·) strLeData inferInstance inferInstance _
  have hnd : (@List.insertionSort String (· ≤ ·) strLeData (m.map Prod.fst)).Nodup :=
    (@List.perm_insertionSort String (· ≤ ·) strLeData _).symm.nodup h
  exact (hsorted.and hnd).imp (fun hab => lt_of_le_of_ne hab.1 hab.2)

theorem sortResults_perm_eq {m₁ m₂ : DomainMap} (h : nodupKeys m₁) (hp : m₁.Perm m₂) :
    sortResults m₁ = sortResults m₂ := by
  have hkeys : (m₁.map Prod.fst).Perm (m₂.map Prod.fst) := hp.map Prod.fst
  have hsorteq : @List.insertionSort String (· ≤ ·) strLeData (m₁.map Prod.fst) =
      @List.insertionSort String (· ≤ ·) strLeData (m₂.map Prod.fst) := by
    apply @List.eq_of_perm_of_sorted String (· ≤ ·) inferInstance
    · exact (@List.perm_insertionSort String (· ≤ ·) strLeData _).trans
        (hkeys.trans (@List.perm_insertionSort String (· ≤ ·) strLeData _).symm)
    · exact @List.sorted_insertionSort String (· ≤ ·) strLeData inferInstance inferInstance _
    · exact @List.sorted_insertionSort String (· ≤ ·) strLeData inferInstance inferInstance _
  unfold sortResults
  rw [hsorteq]
  apply List.map_congr_left
  intro d _
  have hcount : lookupCount m₁ d = lookupCount m₂ d := lookupCount_perm hp h d
  rw [hcount]

theorem mapIncr_lowerKeys {m : DomainMap} (hm : lowerKeys m) (d : String) :
    lowerKeys (mapIncr m (lowerCase d)) := by
  unfold lowerKeys at hm ⊢
  intro k hk
  rw [mapIncr_keys] at hk
  by_cases hmem : lowerCase d ∈ m.map Prod.fst
  · rw [if_pos hmem] at hk
    exact hm k hk
  · rw [if_neg hmem] at hk
    rcases List.mem_append.mp hk with h1 | h2
    · exact hm k h1
    · simp only [List.mem_singleton] at h2
      subst h2
      exact lowerCase_idem d

theorem Import_eq_ok_of_wellformed (ci : customerImporter) (header : List String)
    (rows : List (List String)) (i : Nat)
    (hcol : findEmailCol ci.EmailColumnName header 0 = some i)
    (hlen : ∀ r ∈ rows, r.length = header.length) :
    Import ci (some (header :: rows)) =
      .ok (sortResults (specAggregate i [] rows)) (specSkipLogs i 2 rows) := by
  have hi : i < header.length := by
    have := findEmailCol_some_lt hcol
    omega
  unfold Import parseHeader
  dsimp only
  rw [hcol]
  dsimp only
  rw [importLoop_done_of_wellformed rows header.length i [] 2 [] hlen hi]
  simp

theorem Import_ok_inv {ci : customerImporter} {reader : Option (List (List String))}
    {results : List EmailGroup} {logs : List String}
    (h : Import ci reader = .ok results logs) :
    ∃ header rows m, reader = some (header :: rows) ∧ results = sortResults m ∧
      nodupKeys m ∧ sumValues m ≤ rows.length := by
  rcases reader with _ | records
  · unfold Import parseHeader at h
    cases h
  · rcases records with _ | ⟨header, rows⟩
    · unfold Import parseHeader at h
      cases h
    · rcases hph : parseHeader ci (some (header :: rows)) with e | i
      · unfold Import at h
        rw [hph] at h
        cases h
      · unfold Import at h
        rw [hph] at h
        dsimp only at h
        rcases hloop : importLoop rows header.length i [] 2 [] with ⟨m, logs'⟩ | e | _ <;>
          rw [hloop] at h
        · obtain ⟨h1, h2⟩ := importLoop_done_nodup_sum hloop
          refine ⟨header, rows, m, rfl, (ImportResult.ok.inj h).1.symm,
            h1 (by simp [nodupKeys]), ?_⟩
          simpa [sumValues] using h2
        · cases h
        · cases h

theorem specSkipLogs_ne_nil (i : Nat) (r : List String)
    (hv : validEmailRow i r = false) :
    ∀ rows, r ∈ rows → ∀ n, specSkipLogs i n rows ≠ [] := by
  intro rows
  induction rows with
  | nil => intro hr; cases hr
  | cons x rest ih =>
    intro hr n
    unfold specSkipLogs
    by_cases hx : (emailSplit (x.getD i "")).length = numExpectedEmailComponents
    · rw [if_pos hx]
      rcases List.mem_cons.mp hr with heq | hmem
      · subst heq
        unfold validEmailRow at hv
        rw [show ((emailSplit (r.getD i "")).length == numExpectedEmailComponents) = true
          from by rw [hx]; simp] at hv
        cases hv
      · exact ih hmem (n + 1)
    · rw [if_neg hx]
      simp

/-- Header of the positive test case of the repository's test file. -/
def testHeader : List String :=
  ["first_name", "last_name", "email", "gender", "ip_address"]

/-- The nine data rows of the positive test case: domains `github.io` twice,
`cnet.com` once, `whitehouse.gov` once, `woothemes.com` twice, `google.fr`
three times. -/
def testRows : List (List String) :=
  [["Mildred", "Hernandez", "mhernandez0@github.io", "Female", "38.194.51.128"],
   ["Norma", "Allen", "nallen8@cnet.com", "Female", "168.67.162.1"],
   ["Anna", "Rivera", "ariverag@whitehouse.gov", "Female", "105.158.80.2"],
   ["Lori", "Elliott", "lelliotth@github.io", "Female", "160.108.154.74"],
   ["Wanda", "Lewis", "wlewisk@woothemes.com", "Female", "25.32.100.250"],
   ["Robert", "Hunter", "rhunterp@google.fr", "Male", "130.35.232.64"],
   ["Gregory", "Ryan", "gryanq@google.fr", "Male", "188.242.255.152"],
   ["Andrew", "Morgan", "amorganr@google.fr", "Male", "3.184.160.117"],
   ["Peter", "Day", "pdays@woothemes.com", "Male", "0.24.246.12"]]

/-- Claim C1, counterexample: the email field `"a@"` splits into the two
components `"a"` and `""`, the second of which is empty, yet `processLine`
does not fail with the `invalid email format` error the claim requires — it
succeeds and increments the counter of the empty domain. -/
theorem processLine_accepts_empty_component :
    processLine ["a@"] 0 [] 2 = ProcResult.ok [("", 1)] ∧
    processLine ["a@"] 0 [] 2 ≠ ProcResult.err "invalid email format" := by
  constructor
  · decide
  · decide

/-- Claim C1 (amended): for a record whose email field is present, if the
field splits on `'@'` into anything other than exactly two components — empty
or not — `processLine` fails with the `invalid email format` error (and, the
embedding being functional, the map is unchanged); if it splits into exactly
two components, possibly empty ones, `processLine` succeeds and increments
the lower-cased domain's counter by one. -/
theorem processLine_email_format (line : List String) (i : Nat) (m : DomainMap)
    (n : Nat) (hi : i < line.length) :
    ((emailSplit (line.getD i "")).length ≠ numExpectedEmailComponents →
      processLine line i m n = .err "invalid email format") ∧
    (∀ u d, emailSplit (line.getD i "") = [u, d] →
      processLine line i m n = .ok (mapIncr m (lowerCase d)) ∧
      lookupCount (mapIncr m (lowerCase d)) (lowerCase d) =
        lookupCount m (lowerCase d) + 1) := by
  constructor
  · intro hlen
    rw [processLine_eq m n hi]
    rcases hs : emailSplit (line.getD i "") with _ | ⟨a, _ | ⟨b, _ | ⟨c, t⟩⟩⟩
    · rfl
    · rfl
    · rw [hs] at hlen
      simp [numExpectedEmailComponents] at hlen
    · rfl
  · intro u d hs
    rw [processLine_eq m n hi, hs]
    exact ⟨rfl, lookupCount_mapIncr_self m (lowerCase d)⟩

/-- Witness for C1's amended theorem at the record `["u@Dom.Com"]`. -/
theorem processLine_email_format_witness :
    emailSplit ((["u@Dom.Com"] : List String).getD 0 "") = ["u", "Dom.Com"] ∧
    processLine ["u@Dom.Com"] 0 [] 2 = ProcResult.ok (mapIncr [] (lowerCase "Dom.Com")) ∧
    lookupCount (mapIncr [] (lowerCase "Dom.Com")) (lowerCase "Dom.Com") =
      lookupCount [] (lowerCase "Dom.Com") + 1 :=
  ⟨by decide,
    (processLine_email_format ["u@Dom.Com"] 0 [] 2 (by decide)).2 "u" "Dom.Com" (by decide)⟩

/-- Claim C2, counterexample: processing the record `["b@"]` inserts the
empty string as a map key, so the invariant that every key is non-empty does
not hold for the code. -/
theorem aggregation_key_empty :
    processLine ["b@"] 0 [] 5 = ProcResult.ok [("", 1)] ∧
    ("" : String) ∈ ([("", 1)] : DomainMap).map Prod.fst ∧
    ("" : String).length = 0 := by
  refine ⟨by decide, by decide, rfl⟩

/-- Claim C2 (amended): every key `processLine` inserts or increments is
equal to its own lower-casing — the non-emptiness half of the spec's
invariant is dropped, since an email `"user@"` yields the empty-string key —
and this lower-casedness invariant is preserved by every successful
`processLine` call. -/
theorem processLine_preserves_lowerKeys {line : List String} {i n : Nat}
    {m m' : DomainMap} (hm : lowerKeys m) (h : processLine line i m n = .ok m') :
    lowerKeys m' := by
  obtain ⟨d, rfl⟩ := processLine_ok_shape h
  exact mapIncr_lowerKeys hm d

/-- Witness for C2's amended theorem: processing `["u@D.Com"]` from the
empty map yields the map `[("d.com", 1)]`, whose keys are lower-cased. -/
theorem processLine_preserves_lowerKeys_witness : lowerKeys [("d.com", 1)] :=
  processLine_preserves_lowerKeys (by simp [lowerKeys])
    (show processLine ["u@D.Com"] 0 [] 2 = ProcResult.ok [("d.com", 1)] by decide)

/-- Claim C3: the defensive check `len(line) < emailColIndex` of the source
misses the boundary case — for a record whose field count equals the email
column index (so the email field is absent), the check passes and
`line[emailColIndex]` is out of range, a Go runtime panic, instead of the
`field not found` error the spec requires. -/
theorem processLine_boundary_out_of_range (line : List String) (i : Nat)
    (m : DomainMap) (n : Nat) (hlen : line.length = i) :
    processLine line i m n = ProcResult.outOfRange := by
  unfold processLine
  rw [if_neg (by omega)]
  have hget : line.get? i = none := by
    rw [List.get?_eq_none]
    omega
  rw [hget]

/-- Witness for C3's theorem at the record `["a"]` with email column 1. -/
theorem processLine_boundary_out_of_range_witness :
    (["a"] : List String).length = 1 ∧
    processLine ["a"] 1 [] 2 = ProcResult.outOfRange :=
  ⟨by decide, processLine_boundary_out_of_range ["a"] 1 [] 2 (by decide)⟩

/-- Claim C4: for a well-formed input — the header resolves the email column
and every row's field count matches the header's — `Import` succeeds and the
sum of the returned counters equals the number of rows whose email field
splits on `'@'` into exactly two parts; moreover, on every input on which
`Import` succeeds at all, that sum is at most the number of data rows. -/
theorem import_sum_counts (ci : customerImporter) (header : List String)
    (rows : List (List String)) (i : Nat)
    (hcol : findEmailCol ci.EmailColumnName header 0 = some i)
    (hlen : ∀ r ∈ rows, r.length = header.length) :
    (∃ results logs, Import ci (some (header :: rows)) = .ok results logs ∧
      sumCounters results = rows.countP (validEmailRow i) ∧
      sumCounters results ≤ rows.length) ∧
    (∀ header' rows' results logs,
      Import ci (some (header' :: rows')) = .ok results logs →
        sumCounters results ≤ rows'.length) := by
  constructor
  · refine ⟨sortResults (specAggregate i [] rows), specSkipLogs i 2 rows,
      Import_eq_ok_of_wellformed ci header rows i hcol hlen, ?_, ?_⟩
    · rw [sumCounters_sortResults (nodupKeys_specAggregate i rows (by simp [nodupKeys]))]
      rw [sumValues_specAggregate]
      simp [sumValues]
    · rw [sumCounters_sortResults (nodupKeys_specAggregate i rows (by simp [nodupKeys]))]
      rw [sumValues_specAggregate]
      simpa [sumValues] using List.countP_le_length _
  · intro header' rows' results logs hok
    obtain ⟨header₀, rows₀, m, heq, rfl, hnd, hsum⟩ := Import_ok_inv hok
    injection heq with h1
    injection h1 with h2 h3
    subst h3
    rw [sumCounters_sortResults hnd]
    exact hsum

/-- Witness for C4 at a two-row input, one valid and one invalid email. -/
theorem import_sum_counts_witness :
    findEmailCol New.EmailColumnName ["email"] 0 = some 0 ∧
    (∃ results logs, Import New (some [["email"], ["u@x.io"], ["bad"]]) =
        .ok results logs ∧
      sumCounters results = [["u@x.io"], ["bad"]].countP (validEmailRow 0) ∧
      sumCounters results ≤ ([["u@x.io"], ["bad"]] : List (List String)).length) :=
  ⟨by decide,
    (import_sum_counts New ["email"] [["u@x.io"], ["bad"]] 0 (by decide) (by decide)).1⟩

/-- Claim C5: for every aggregation map with distinct keys, `sortResults` is
strictly ascending by domain under the lexicographic string order, contains
no duplicate domains, and depends only on the map's contents — any
permutation of the entries yields the same output; consequently every result
list of a successful `Import` is strictly sorted by domain. -/
theorem sortResults_sorted_deterministic (m₁ m₂ : DomainMap) (h : nodupKeys m₁)
    (hp : m₁.Perm m₂) :
    ((sortResults m₁).map EmailGroup.EmailDomain).Pairwise (· < ·) ∧
    ((sortResults m₁).map EmailGroup.EmailDomain).Nodup ∧
    sortResults m₁ = sortResults m₂ ∧
    (∀ ci reader results logs, Import ci reader = ImportResult.ok results logs →
      (results.map EmailGroup.EmailDomain).Pairwise (· < ·)) := by
  have hstrict := sortResults_strictSorted h
  refine ⟨hstrict, hstrict.imp (fun hab => ne_of_lt hab), sortResults_perm_eq h hp, ?_⟩
  intro ci reader results logs hok
  obtain ⟨header, rows, m, hreader, rfl, hnd, hsum⟩ := Import_ok_inv hok
  exact sortResults_strictSorted hnd

/-- Witness for C5 on a two-entry map and a transposition of it. -/
theorem sortResults_sorted_deterministic_witness :
    ((sortResults [("b.io", 1), ("a.io", 2)]).map EmailGroup.EmailDomain).Pairwise
      (· < ·) ∧
    sortResults [("b.io", 1), ("a.io", 2)] = sortResults [("a.io", 2), ("b.io", 1)] := by
  have h := sortResults_sorted_deterministic [("b.io", 1), ("a.io", 2)]
    [("a.io", 2), ("b.io", 1)] (by simp [nodupKeys]) (List.Perm.swap _ _ _)
  exact ⟨h.1, h.2.2.1⟩

/-- Claim C6: domain aggregation is case-insensitive — two records whose
email domains differ only in letter case are counted under the same single
lower-cased key, whose counter afterwards includes both. -/
theorem processLine_case_insensitive_domains (line₁ line₂ : List String) (i : Nat)
    (m : DomainMap) (n₁ n₂ : Nat) (u₁ d₁ u₂ d₂ : String)
    (hi₁ : i < line₁.length) (hi₂ : i < line₂.length)
    (hs₁ : emailSplit (line₁.getD i "") = [u₁, d₁])
    (hs₂ : emailSplit (line₂.getD i "") = [u₂, d₂])
    (hcase : lowerCase d₁ = lowerCase d₂) :
    processLine line₁ i m n₁ = .ok (mapIncr m (lowerCase d₁)) ∧
    processLine line₂ i (mapIncr m (lowerCase d₁)) n₂ =
      .ok (mapIncr (mapIncr m (lowerCase d₁)) (lowerCase d₁)) ∧
    lookupCount (mapIncr (mapIncr m (lowerCase d₁)) (lowerCase d₁)) (lowerCase d₁) =
      lookupCount m (lowerCase d₁) + 2 := by
  refine ⟨?_, ?_, ?_⟩
  · rw [processLine_eq m n₁ hi₁, hs₁]
  · rw [processLine_eq _ n₂ hi₂, hs₂]
    dsimp only
    rw [← hcase]
  · rw [lookupCount_mapIncr_self, lookupCount_mapIncr_self]

/-- Witness for C6 with the spec's own example emails `Foo@EXAMPLE.com` and
`bar@example.COM`. -/
theorem processLine_case_insensitive_domains_witness :
    lowerCase "EXAMPLE.com" = lowerCase "example.COM" ∧
    (processLine ["Foo@EXAMPLE.com"] 0 [] 2 =
        ProcResult.ok (mapIncr [] (lowerCase "EXAMPLE.com")) ∧
      processLine ["bar@example.COM"] 0 (mapIncr [] (lowerCase "EXAMPLE.com")) 3 =
        ProcResult.ok
          (mapIncr (mapIncr [] (lowerCase "EXAMPLE.com")) (lowerCase "EXAMPLE.com")) ∧
      lookupCount (mapIncr (mapIncr [] (lowerCase "EXAMPLE.com"))
          (lowerCase "EXAMPLE.com")) (lowerCase "EXAMPLE.com") =
        lookupCount [] (lowerCase "EXAMPLE.com") + 2) :=
  ⟨by decide,
    processLine_case_insensitive_domains ["Foo@EXAMPLE.com"] ["bar@example.COM"] 0 [] 2 3
      "Foo" "EXAMPLE.com" "bar" "example.COM" (by decide) (by decide) (by decide)
      (by decide) (by decide)⟩

/-- Claim C7: a per-line failure never aborts the import — when the header
resolves and all field counts match, an input containing rows whose email
does not split into exactly two parts still makes `Import` succeed, with
exactly the aggregation of the remaining valid rows, and each bad row leaves
a `skip line` log entry carrying its line number. -/
theorem import_skips_invalid_rows (ci : customerImporter) (header : List String)
    (rows : List (List String)) (i : Nat)
    (hcol : findEmailCol ci.EmailColumnName header 0 = some i)
    (hlen : ∀ r ∈ rows, r.length = header.length)
    (hbad : ∃ r ∈ rows, validEmailRow i r = false) :
    Import ci (some (header :: rows)) =
      .ok (sortResults (specAggregate i [] rows)) (specSkipLogs i 2 rows) ∧
    specAggregate i [] rows = specAggregate i [] (rows.filter (validEmailRow i)) ∧
    specSkipLogs i 2 rows ≠ [] := by
  obtain ⟨r, hr, hv⟩ := hbad
  exact ⟨Import_eq_ok_of_wellformed ci header rows i hcol hlen,
    specAggregate_filter i [] rows, specSkipLogs_ne_nil i r hv rows hr 2⟩

/-- Witness for C7 at a three-row input whose middle row has no `'@'`. -/
theorem import_skips_invalid_rows_witness :
    Import New (some [["email"], ["u@x.io"], ["nofish"], ["v@y.io"]]) =
      .ok (sortResults (specAggregate 0 [] [["u@x.io"], ["nofish"], ["v@y.io"]]))
        (specSkipLogs 0 2 [["u@x.io"], ["nofish"], ["v@y.io"]]) ∧
    specAggregate 0 [] [["u@x.io"], ["nofish"], ["v@y.io"]] =
      specAggregate 0 []
        ([["u@x.io"], ["nofish"], ["v@y.io"]].filter (validEmailRow 0)) ∧
    specSkipLogs 0 2 [["u@x.io"], ["nofish"], ["v@y.io"]] ≠ [] :=
  import_skips_invalid_rows New ["email"] [["u@x.io"], ["nofish"], ["v@y.io"]] 0
    (by decide) (by decide) ⟨["nofish"], by decide, by decide⟩

/-- Claim C8: when no header field equals the configured email column name,
`Import` fails with the `missing column name` error naming that column, and
returns no results at all. -/
theorem import_missing_column (ci : customerImporter) (header : List String)
    (rest : List (List String)) (habs : ∀ c ∈ header, c ≠ ci.EmailColumnName) :
    Import ci (some (header :: rest)) =
      .err ("missing column name '" ++ ci.EmailColumnName ++
        "' in the first line of the file") ∧
    ∀ results logs, Import ci (some (header :: rest)) ≠ .ok results logs := by
  have hnone : findEmailCol ci.EmailColumnName header 0 = none := findEmailCol_none 0 habs
  have himp : Import ci (some (header :: rest)) =
      .err ("missing column name '" ++ ci.EmailColumnName ++
        "' in the first line of the file") := by
    unfold Import parseHeader
    dsimp only
    rw [hnone]
  refine ⟨himp, fun results logs hok => ?_⟩
  rw [himp] at hok
  cases hok

/-- Witness for C8 at the test file's bad header, whose `MAIL` field does not
match the configured column `email`. -/
theorem import_missing_column_witness :
    Import New (some [["first_name", "last_name", "MAIL", "gender", "ip_address"],
        ["Mildred", "Hernandez", "mhernandez0@github.io", "Female", "38.194.51.128"]]) =
      ImportResult.err ("missing column name '" ++ New.EmailColumnName ++
        "' in the first line of the file") :=
  (import_missing_column New ["first_name", "last_name", "MAIL", "gender", "ip_address"]
    [["Mildred", "Hernandez", "mhernandez0@github.io", "Female", "38.194.51.128"]]
    (by decide)).1

/-- Claim C9: on the test file's header and nine data rows, `Import` returns
exactly the five groups, ascending by domain, with counts 1, 2, 3, 1, 2, and
logs nothing. -/
theorem import_positive_example :
    Import New (some (testHeader :: testRows)) =
      ImportResult.ok
        [⟨"cnet.com", 1⟩, ⟨"github.io", 2⟩, ⟨"google.fr", 3⟩,
         ⟨"whitehouse.gov", 1⟩, ⟨"woothemes.com", 2⟩] [] := by
  decide

/-- Claim C10: each setter changes only its own configuration field, and the
result of `Import` depends only on the email column name, never on the CSV
file name. -/
theorem setters_frame (ci : customerImporter) (fileName columnName : String)
    (ci₁ ci₂ : customerImporter) (reader : Option (List (List String)))
    (h : ci₁.EmailColumnName = ci₂.EmailColumnName) :
    (SetCsvFileName ci fileName).CsvFileName = fileName ∧
    (SetCsvFileName ci fileName).EmailColumnName = ci.EmailColumnName ∧
    (SetEmailColumnName ci columnName).EmailColumnName = columnName ∧
    (SetEmailColumnName ci columnName).CsvFileName = ci.CsvFileName ∧
    Import ci₁ reader = Import ci₂ reader := by
  refine ⟨rfl, rfl, rfl, rfl, ?_⟩
  have hph : parseHeader ci₁ reader = parseHeader ci₂ reader := by
    unfold parseHeader
    rw [h]
  unfold Import
  rw [hph]

/-- Witness for C10: changing the CSV file name does not change what `Import`
returns on a fixed reader. -/
theorem setters_frame_witness :
    (SetCsvFileName New "other.csv").CsvFileName = "other.csv" ∧
    (SetCsvFileName New "other.csv").EmailColumnName = New.EmailColumnName ∧
    (SetEmailColumnName New "correo").EmailColumnName = "correo" ∧
    (SetEmailColumnName New "correo").CsvFileName = New.CsvFileName ∧
    Import (SetCsvFileName New "other.csv") (some [["email"], ["u@x.io"]]) =
      Import New (some [["email"], ["u@x.io"]]) :=
  setters_frame New "other.csv" "correo" (SetCsvFileName New "other.csv") New
    (some [["email"], ["u@x.io"]]) (by decide)

end CustomerImporter
